import Mathlib

/-!
Shallow embedding of the react-scan render-overlay pipeline
(`outlineFiber`, `mergeRects`, `onIntersect`/`getBatchedRectMap`,
`flushOutlines`) and of the option validation in `core/index.ts`
(`validateOptions`, `setOptions`), together with theorems settling the
specification claims about them.

Elements and fiber identities are modelled as natural numbers; rectangle
coordinates as rationals; JS `Map`s keyed by objects as association lists
in insertion order.
-/

/-- Axis-aligned rectangle, as the `x`/`y`/`width`/`height` view of a
`DOMRect`. -/
structure Rect where
  x : ℚ
  y : ℚ
  width : ℚ
  height : ℚ
deriving DecidableEq, Repr

/-- The running `minX`/`minY`/`maxX`/`maxY` accumulator of the loop inside
`mergeRects`.  All four variables are `null` together exactly before the
first iteration, so the four `== null` checks collapse to one `Option`
layer around the quadruple. -/
structure MergeAcc where
  minX : ℚ
  minY : ℚ
  maxX : ℚ
  maxY : ℚ
deriving DecidableEq, Repr

/-- One iteration of the `for` loop in `mergeRects`: on the first rect the
four accumulators are seeded, afterwards `min`/`max`-folded. -/
def mergeStep (acc : Option MergeAcc) (r : Rect) : Option MergeAcc :=
  match acc with
  | none => some ⟨r.x, r.y, r.x + r.width, r.y + r.height⟩
  | some a =>
      some ⟨min a.minX r.x, min a.minY r.y,
            max a.maxX (r.x + r.width), max a.maxY (r.y + r.height)⟩

/-- `mergeRects(rects)` from the overlay module.  Reading `rects[0]` of an
empty array yields `undefined` in JS, modelled by `none`; a single rect is
returned unchanged; otherwise the loop computes the bounding box.  The
post-loop `minX == null` fallback returns `rects[0]`, i.e. `rects.head?`. -/
def mergeRects (rects : List Rect) : Option Rect :=
  if rects.length = 1 then rects.head?
  else
    match rects.foldl mergeStep none with
    | none => rects.head?
    | some a => some ⟨a.minX, a.minY, a.maxX - a.minX, a.maxY - a.minY⟩

/-- The slice of a React fiber that `outlineFiber` consults: whether the
fiber is composite, its `type` when that is a string, the display name
otherwise (`null` modelled as `none`), the `stateNode`s of the nearest
host fibers, and whether the fiber committed.  `id` is the stable
identity under which notifications aggregate. -/
structure FiberInfo where
  id : ℕ
  isComposite : Bool
  typeString : Option String
  displayName : Option String
  nearestElements : List ℕ
  didCommit : Bool
deriving DecidableEq, Repr

/-- `typeof fiber.type === 'string' ? fiber.type : getDisplayName(fiber)`. -/
def resolveName (f : FiberInfo) : Option String :=
  match f.typeString with
  | some s => some s
  | none => f.displayName

/-- A `BlueprintOutline` from the overlay module: aggregated render data
for one fiber (`didCommit` is stored as the number `0` or `1`). -/
structure BlueprintOutline where
  name : String
  count : ℕ
  elements : List ℕ
  didCommit : ℕ
deriving DecidableEq, Repr

/-- The `blueprintMap` (a JS `Map` keyed by fiber), as an insertion-ordered
association list from fiber identity to blueprint. -/
abbrev BlueprintStore : Type := List (ℕ × BlueprintOutline)

/-- `blueprintMap.get(fiber)`. -/
def lookupStore (st : BlueprintStore) (i : ℕ) : Option BlueprintOutline :=
  (List.find? (fun p => p.1 = i) st).map (fun p => p.2)

/-- `blueprintMap.set(fiber, bp)` for a key already present: replace the
entry in place, preserving insertion order. -/
def updateStore (st : BlueprintStore) (i : ℕ) (bp : BlueprintOutline) :
    BlueprintStore :=
  st.map (fun p => if p.1 = i then (i, bp) else p)

/-- `outlineFiber(fiber)`: skip non-composite fibers and fibers whose
resolved name is falsy (null or the empty string); otherwise create a
blueprint with `count = 1` on first notification, and on later
notifications only increment `count` (the stored `didCommit` and
`elements` are left untouched). -/
def outlineFiber (st : BlueprintStore) (f : FiberInfo) : BlueprintStore :=
  if f.isComposite = false then st
  else
    match resolveName f with
    | none => st
    | some name =>
        if name = "" then st
        else
          match lookupStore st f.id with
          | none =>
              st ++ [(f.id,
                ⟨name, 1, f.nearestElements, if f.didCommit then 1 else 0⟩)]
          | some bp => updateStore st f.id { bp with count := bp.count + 1 }

/-- An `IntersectionObserverEntry` restricted to the fields the pipeline
reads: the target element, its `intersectionRect` and `isIntersecting`. -/
structure Entry where
  target : ℕ
  rect : Rect
  isIntersecting : Bool
deriving DecidableEq, Repr

/-- The closed-over `IntersectionState` of `getBatchedRectMap`, plus a
`disconnected` flag recording that `observer.disconnect()` ran. -/
structure IState where
  unique : Finset ℕ
  seen : Finset ℕ
  done : Bool
  disconnected : Bool
deriving DecidableEq

/-- The entry-filtering loop of `onIntersect`: walk the callback entries in
order, keeping each entry whose target has not been seen yet in this pass
and marking it seen. -/
def scanEntries (seen : Finset ℕ) : List Entry → Finset ℕ × List Entry
  | [] => (seen, [])
  | en :: rest =>
      if en.target ∈ seen then scanEntries seen rest
      else
        let r := scanEntries (insert en.target seen) rest
        (r.1, en :: r.2)

/-- One `onIntersect` callback invocation: filter the entries to the not
yet seen ones (these are handed to the awaiting consumer), and if every
unique element has now reported, disconnect the observer and mark the
pass done. -/
def onIntersect (s : IState) (entries : List Entry) : IState × List Entry :=
  let r := scanEntries s.seen entries
  if r.1.card = s.unique.card then
    ({ s with seen := r.1, done := true, disconnected := true }, r.2)
  else
    ({ s with seen := r.1 }, r.2)

/-- The initial `IntersectionState` built by `getBatchedRectMap`. -/
def initState (unique : Finset ℕ) : IState :=
  ⟨unique, ∅, false, false⟩

/-- One resolution pass of `getBatchedRectMap` under the cooperative
event-loop semantics: the host delivers callback batches one at a time
while the generator awaits, and the generator yields each non-empty
filtered batch to its consumer. -/
def runResolver (s : IState) : List (List Entry) → IState × List (List Entry)
  | [] => (s, [])
  | b :: bs =>
      let step := onIntersect s b
      let rest := runResolver step.1 bs
      (rest.1, if step.2 = [] then rest.2 else step.2 :: rest.2)

/-- The per-cycle `rectsMap` of `flushOutlines`, fresh (empty) at the start
of every cycle. -/
def RectsMap : Type := ℕ → Option Rect

/-- The empty `rectsMap`. -/
def emptyRectsMap : RectsMap := fun _ => none

/-- `rectsMap.set(element, rect)`. -/
def setRect (m : RectsMap) (e : ℕ) (r : Rect) : RectsMap :=
  fun x => if x = e then some r else m x

/-- The entry loop at the top of the `for await` body of `flushOutlines`:
an entry is recorded only when `entry.isIntersecting && rect.width &&
rect.height` (nonzero width and height); other entries record nothing. -/
def applyBatch (m : RectsMap) (batch : List Entry) : RectsMap :=
  batch.foldl
    (fun m en =>
      if en.isIntersecting = true ∧ en.rect.width ≠ 0 ∧ en.rect.height ≠ 0
      then setRect m en.target en.rect
      else m)
    m

/-- The rectangles a blueprint resolves under a given `rectsMap`: the
`rects` array built by the inner loop of `flushOutlines` (elements with no
entry in the map are skipped). -/
def collectRects (bp : BlueprintOutline) (m : RectsMap) : List Rect :=
  bp.elements.filterMap m

/-- A Merged Outline Record: one row of the parallel
`blueprints`/`blueprintRects`/`blueprintIds` arrays of `flushOutlines`,
i.e. what one blueprint contributes to a dispatch. -/
structure Record where
  id : ℕ
  name : String
  count : ℕ
  x : ℚ
  y : ℚ
  width : ℚ
  height : ℚ
  didCommit : ℕ
deriving DecidableEq, Repr

/-- Builds the record of one blueprint from its merged rectangle. -/
def mkRecord (fid : ℕ) (bp : BlueprintOutline) (mr : Rect) : Record :=
  ⟨fid, bp.name, bp.count, mr.x, mr.y, mr.width, mr.height, bp.didCommit⟩

/-- The blueprint loop of the `for await` body of `flushOutlines`,
parametrised by the rectangle substituted for an `undefined` result of
`mergeRects` (never consulted, as proved below): every blueprint whose
`rects` list is empty is skipped (`if (!rects.length) continue`), the
others contribute `mergeRects(rects)` as their record. -/
def buildRecordsWith (d : Rect) (store : BlueprintStore) (m : RectsMap) :
    List Record :=
  store.filterMap
    (fun p =>
      let rects := collectRects p.2 m
      if rects = [] then none
      else some (mkRecord p.1 p.2 ((mergeRects rects).getD d)))

/-- The blueprint loop with the zero rectangle as the (unreachable)
fallback. -/
def buildRecords (store : BlueprintStore) (m : RectsMap) : List Record :=
  buildRecordsWith ⟨0, 0, 0, 0⟩ store m

/-- The `for await` loop of `flushOutlines` over the batches yielded by
`getBatchedRectMap`: each batch first updates the `rectsMap`, then the
record set of every blueprint is recomputed from the updated map and
handed to the renderer, before the next batch is awaited. -/
def flushLoop (store : BlueprintStore) (m : RectsMap) :
    List (List Entry) → List (List Record)
  | [] => []
  | batch :: rest =>
      let m' := applyBatch m batch
      buildRecords store m' :: flushLoop store m' rest

/-- One flush cycle's per-batch record sets, starting from the fresh empty
`rectsMap`. -/
def flushOutputs (store : BlueprintStore) (batches : List (List Entry)) :
    List (List Record) :=
  flushLoop store emptyRectsMap batches

/-- The `rectsMap` accumulated after a list of batches. -/
def rectsAfter (batches : List (List Entry)) : RectsMap :=
  batches.foldl applyBatch emptyRectsMap

/-- Modelled from the spec: `OUTLINE_ARRAY_SIZE` is imported from the
canvas module, which is not part of the sources here; the spec fixes 7
numeric slots per record (id, count, x, y, width, height, didCommit). -/
def OUTLINE_ARRAY_SIZE : ℕ := 7

/-- The seven writes `sharedView[scaledIndex + k] = ...` of one loop
iteration of the worker branch of `flushOutlines`. -/
def writeRecordAt (buf : List ℚ) (base : ℕ) (r : Record) : List ℚ :=
  ((((((buf.set base r.id).set (base + 1) r.count).set (base + 2) r.x).set
      (base + 3) r.y).set (base + 4) r.width).set (base + 5) r.height).set
    (base + 6) r.didCommit

/-- The worker-branch fill loop: record `i` is written at offset
`i * OUTLINE_ARRAY_SIZE`. -/
def fillBufferAux (i : ℕ) (buf : List ℚ) : List Record → List ℚ
  | [] => buf
  | r :: rs => fillBufferAux (i + 1) (writeRecordAt buf (i * OUTLINE_ARRAY_SIZE) r) rs

/-- The flat `Float32Array` view filled by the worker branch, starting
from the zero-initialised buffer of `blueprints.length *
OUTLINE_ARRAY_SIZE` slots (each slot is 4 bytes wide). -/
def fillBuffer (records : List Record) : List ℚ :=
  fillBufferAux 0 (List.replicate (records.length * OUTLINE_ARRAY_SIZE) 0) records

/-- The seven numeric fields of one record in buffer order. -/
def encodeRecord (r : Record) : List ℚ :=
  [r.id, r.count, r.x, r.y, r.width, r.height, r.didCommit]

/-- The message posted to the worker by the worker branch. -/
structure DrawMessage where
  type : String
  data : List ℚ
  names : List String
deriving DecidableEq, Repr

/-- The worker-branch dispatch of `flushOutlines`: the filled buffer and
the parallel name list (`blueprintNames[i] = name`), posted as one
`draw-outlines` message. -/
def workerDispatch (records : List Record) : DrawMessage :=
  ⟨"draw-outlines", fillBuffer records, records.map (fun r => r.name)⟩

/-- A JavaScript value, as far as `validateOptions` discriminates them:
booleans, strings, functions (abstracted to a tag), `undefined`, and
anything else. -/
inductive JSVal where
  | bool (b : Bool)
  | str (s : String)
  | fn (tag : ℕ)
  | undef
  | other (tag : ℕ)
deriving DecidableEq, Repr

/-- A JS object holding option fields: an insertion-ordered association
list with distinct keys. -/
abbrev OptObj : Type := List (String × JSVal)

/-- Property lookup on an option object. -/
def lookupOpt (o : OptObj) (k : String) : Option JSVal :=
  (List.find? (fun p => p.1 = k) o).map (fun p => p.2)

/-- `o.hasOwnProperty(k)`: the key is present in the object. -/
def hasKey (o : OptObj) (k : String) : Bool :=
  (lookupOpt o k).isSome

/-- Spread-assignment of one property: replace the value in place when the
key is present, append otherwise. -/
def assignOpt (o : OptObj) (k : String) (v : JSVal) : OptObj :=
  if hasKey o k then o.map (fun p => if p.1 = k then (k, v) else p)
  else o ++ [(k, v)]

/-- `{ ...base, ...upd }`. -/
def spreadOpts (base upd : OptObj) : OptObj :=
  upd.foldl (fun acc p => assignOpt acc p.1 p.2) base

/-- The option keys validated as plain booleans by the `switch` in
`validateOptions`. -/
def booleanOptionKeys : List String :=
  ["enabled", "log", "showToolbar", "showNotificationCount",
   "dangerouslyForceRunInProduction", "trackUnnecessaryRenders", "showFPS"]

/-- The callback option keys, which accept a function or `undefined`. -/
def callbackOptionKeys : List String :=
  ["onCommitStart", "onCommitFinish", "onPaintStart", "onPaintFinish",
   "onRender"]

/-- The per-key value test of the `switch` statement in `validateOptions`:
`some v` means the field is accepted (with value `v`), `none` that it is
rejected or falls to the silent `default` arm. -/
def switchValidate (k : String) (v : JSVal) : Option JSVal :=
  if booleanOptionKeys.contains k then
    match v with
    | JSVal.bool _ => some v
    | _ => none
  else if k = "animationSpeed" then
    if v = JSVal.str "slow" ∨ v = JSVal.str "fast" ∨ v = JSVal.str "off"
    then some v else none
  else if k = "_debug" then
    if v = JSVal.str "verbose" ∨ v = JSVal.bool false ∨ v = JSVal.undef
    then some v else none
  else if callbackOptionKeys.contains k then
    match v with
    | JSVal.fn _ => some v
    | JSVal.undef => some v
    | _ => none
  else none

/-- `isOptionKey(key)`: membership among the keys of the *currently
stored* options object. -/
def isOptionKey (current : OptObj) (k : String) : Bool :=
  hasKey current k

/-- `validateOptions(options)`: each field is checked on its own — fields
whose key is unknown to the current options object are skipped, the rest
pass through the `switch`; accepted fields are collected into
`validOptions`. -/
def validateOptions (current : OptObj) (options : OptObj) : OptObj :=
  options.filterMap
    (fun p =>
      if isOptionKey current p.1 = false then none
      else (switchValidate p.1 p.2).map (fun v => (p.1, v)))

/-- The effect of `setOptions(userOptions)` on the stored options value:
when no field validated and `enabled` was not among the input keys the
call returns early, otherwise the valid fields are spread over the
current options. -/
def setOptions (current : OptObj) (userOptions : OptObj) : OptObj :=
  let validOptions := validateOptions current userOptions
  if validOptions.length = 0 ∧ hasKey userOptions "enabled" = false then
    current
  else spreadOpts current validOptions

/-- The initial options value of `ReactScanInternals.options`. -/
def defaultOptions : OptObj :=
  [("enabled", JSVal.bool true),
   ("log", JSVal.bool false),
   ("showToolbar", JSVal.bool true),
   ("animationSpeed", JSVal.str "fast"),
   ("dangerouslyForceRunInProduction", JSVal.bool false),
   ("showFPS", JSVal.bool true),
   ("showNotificationCount", JSVal.bool true)]

/-- C3: merging a one-element rectangle list returns that rectangle
unchanged. -/
theorem mergeRects_singleton (r : Rect) : mergeRects [r] = some r := by
  simp [mergeRects]

/-- The loop of `mergeRects`, once seeded, computes exact lower/upper
bounds of the rectangle edges it has consumed, and each bound is attained
by the seed or one of the rectangles. -/
theorem mergeFold_spec (rs : List Rect) :
    ∀ a : MergeAcc,
      ∃ b, rs.foldl mergeStep (some a) = some b ∧
        b.minX ≤ a.minX ∧ b.minY ≤ a.minY ∧
        a.maxX ≤ b.maxX ∧ a.maxY ≤ b.maxY ∧
        (∀ r ∈ rs, b.minX ≤ r.x ∧ b.minY ≤ r.y ∧
          r.x + r.width ≤ b.maxX ∧ r.y + r.height ≤ b.maxY) ∧
        (b.minX = a.minX ∨ ∃ r ∈ rs, b.minX = r.x) ∧
        (b.minY = a.minY ∨ ∃ r ∈ rs, b.minY = r.y) ∧
        (b.maxX = a.maxX ∨ ∃ r ∈ rs, b.maxX = r.x + r.width) ∧
        (b.maxY = a.maxY ∨ ∃ r ∈ rs, b.maxY = r.y + r.height) := by
  induction rs with
  | nil =>
      intro a
      exact ⟨a, rfl, le_refl _, le_refl _, le_refl _, le_refl _,
        by simp, Or.inl rfl, Or.inl rfl, Or.inl rfl, Or.inl rfl⟩
  | cons r rs ih =>
      intro a
      obtain ⟨b, hfold, hx, hy, hX, hY, hall, ax, ay, aX, aY⟩ :=
        ih ⟨min a.minX r.x, min a.minY r.y,
            max a.maxX (r.x + r.width), max a.maxY (r.y + r.height)⟩
      refine ⟨b, ?_, ?_, ?_, ?_, ?_, ?_, ?_, ?_, ?_, ?_⟩
      · simpa [mergeStep] using hfold
      · exact le_trans hx (min_le_left _ _)
      · exact le_trans hy (min_le_left _ _)
      · exact le_trans (le_max_left _ _) hX
      · exact le_trans (le_max_left _ _) hY
      · intro r' hr'
        rcases List.mem_cons.mp hr' with h | h
        · subst h
          exact ⟨le_trans hx (min_le_right _ _), le_trans hy (min_le_right _ _),
            le_trans (le_max_right _ _) hX, le_trans (le_max_right _ _) hY⟩
        · exact hall r' h
      · rcases ax with h | ⟨r', hr', h⟩
        · rcases min_choice a.minX r.x with hmin | hmin
          · exact Or.inl (h.trans hmin)
          · exact Or.inr ⟨r, List.mem_cons_self r rs, h.trans hmin⟩
        · exact Or.inr ⟨r', List.mem_cons_of_mem r hr', h⟩
      · rcases ay with h | ⟨r', hr', h⟩
        · rcases min_choice a.minY r.y with hmin | hmin
          · exact Or.inl (h.trans hmin)
          · exact Or.inr ⟨r, List.mem_cons_self r rs, h.trans hmin⟩
        · exact Or.inr ⟨r', List.mem_cons_of_mem r hr', h⟩
      · rcases aX with h | ⟨r', hr', h⟩
        · rcases max_choice a.maxX (r.x + r.width) with hmax | hmax
          · exact Or.inl (h.trans hmax)
          · exact Or.inr ⟨r, List.mem_cons_self r rs, h.trans hmax⟩
        · exact Or.inr ⟨r', List.mem_cons_of_mem r hr', h⟩
      · rcases aY with h | ⟨r', hr', h⟩
        · rcases max_choice a.maxY (r.y + r.height) with hmax | hmax
          · exact Or.inl (h.trans hmax)
          · exact Or.inr ⟨r, List.mem_cons_self r rs, h.trans hmax⟩
        · exact Or.inr ⟨r', List.mem_cons_of_mem r hr', h⟩

/-- C2: on two or more rectangles, `mergeRects` returns the minimal
axis-aligned bounding box — its `x`/`y` are the least input `x`/`y`, and
`x + width` / `y + height` are the greatest input right/bottom edges
(both bounding every input and attained by one); in particular merging
`{0,0,10,10}` and `{20,20,5,5}` gives `{0,0,25,25}`. -/
theorem mergeRects_bounding_box :
    (∀ rects : List Rect, 2 ≤ rects.length →
      ∃ m, mergeRects rects = some m ∧
        (∀ r ∈ rects, m.x ≤ r.x ∧ m.y ≤ r.y ∧
          r.x + r.width ≤ m.x + m.width ∧ r.y + r.height ≤ m.y + m.height) ∧
        (∃ r ∈ rects, m.x = r.x) ∧ (∃ r ∈ rects, m.y = r.y) ∧
        (∃ r ∈ rects, m.x + m.width = r.x + r.width) ∧
        (∃ r ∈ rects, m.y + m.height = r.y + r.height)) ∧
    mergeRects [⟨0, 0, 10, 10⟩, ⟨20, 20, 5, 5⟩] = some ⟨0, 0, 25, 25⟩ := by
  constructor
  · rintro (_ | ⟨r, rs⟩) hlen
    · simp at hlen
    obtain ⟨b, hfold, hx, hy, hX, hY, hall, ax, ay, aX, aY⟩ :=
      mergeFold_spec rs ⟨r.x, r.y, r.x + r.width, r.y + r.height⟩
    simp only at hx hy hX hY ax ay aX aY
    have hlen1 : (r :: rs).length ≠ 1 := by
      simp only [List.length_cons] at hlen ⊢
      omega
    have hfold' : (r :: rs).foldl mergeStep none = some b := by
      simpa [mergeStep] using hfold
    refine ⟨⟨b.minX, b.minY, b.maxX - b.minX, b.maxY - b.minY⟩, ?_, ?_, ?_, ?_, ?_, ?_⟩
    · unfold mergeRects
      rw [if_neg hlen1, hfold']
    · intro r' hr'
      have h4 : b.minX ≤ r'.x ∧ b.minY ≤ r'.y ∧
          r'.x + r'.width ≤ b.maxX ∧ r'.y + r'.height ≤ b.maxY := by
        rcases List.mem_cons.mp hr' with h | h
        · subst h
          exact ⟨hx, hy, hX, hY⟩
        · exact hall r' h
      refine ⟨h4.1, h4.2.1, ?_, ?_⟩
      · show r'.x + r'.width ≤ b.minX + (b.maxX - b.minX)
        have := h4.2.2.1
        linarith
      · show r'.y + r'.height ≤ b.minY + (b.maxY - b.minY)
        have := h4.2.2.2
        linarith
    · rcases ax with h | ⟨r', hr', h⟩
      · exact ⟨r, List.mem_cons_self r rs, h⟩
      · exact ⟨r', List.mem_cons_of_mem r hr', h⟩
    · rcases ay with h | ⟨r', hr', h⟩
      · exact ⟨r, List.mem_cons_self r rs, h⟩
      · exact ⟨r', List.mem_cons_of_mem r hr', h⟩
    · rcases aX with h | ⟨r', hr', h⟩
      · refine ⟨r, List.mem_cons_self r rs, ?_⟩
        show b.minX + (b.maxX - b.minX) = r.x + r.width
        linarith
      · refine ⟨r', List.mem_cons_of_mem r hr', ?_⟩
        show b.minX + (b.maxX - b.minX) = r'.x + r'.width
        linarith
    · rcases aY with h | ⟨r', hr', h⟩
      · refine ⟨r, List.mem_cons_self r rs, ?_⟩
        show b.minY + (b.maxY - b.minY) = r.y + r.height
        linarith
      · refine ⟨r', List.mem_cons_of_mem r hr', ?_⟩
        show b.minY + (b.maxY - b.minY) = r'.y + r'.height
        linarith
  · show mergeRects [⟨0, 0, 10, 10⟩, ⟨20, 20, 5, 5⟩] = some ⟨0, 0, 25, 25⟩
    norm_num [mergeRects, mergeStep, min_def, max_def]

/-- Witness for C2: the bounding-box theorem applied to a concrete
three-rectangle list. -/
theorem mergeRects_bounding_box_witness :
    ∃ m, mergeRects [⟨0, 0, 10, 10⟩, ⟨20, 20, 5, 5⟩, ⟨3, 1, 4, 2⟩] = some m ∧
      (∀ r ∈ [(⟨0, 0, 10, 10⟩ : Rect), ⟨20, 20, 5, 5⟩, ⟨3, 1, 4, 2⟩],
        m.x ≤ r.x ∧ m.y ≤ r.y ∧
        r.x + r.width ≤ m.x + m.width ∧ r.y + r.height ≤ m.y + m.height) ∧
      (∃ r ∈ [(⟨0, 0, 10, 10⟩ : Rect), ⟨20, 20, 5, 5⟩, ⟨3, 1, 4, 2⟩], m.x = r.x) ∧
      (∃ r ∈ [(⟨0, 0, 10, 10⟩ : Rect), ⟨20, 20, 5, 5⟩, ⟨3, 1, 4, 2⟩], m.y = r.y) ∧
      (∃ r ∈ [(⟨0, 0, 10, 10⟩ : Rect), ⟨20, 20, 5, 5⟩, ⟨3, 1, 4, 2⟩],
        m.x + m.width = r.x + r.width) ∧
      (∃ r ∈ [(⟨0, 0, 10, 10⟩ : Rect), ⟨20, 20, 5, 5⟩, ⟨3, 1, 4, 2⟩],
        m.y + m.height = r.y + r.height) :=
  mergeRects_bounding_box.1 [⟨0, 0, 10, 10⟩, ⟨20, 20, 5, 5⟩, ⟨3, 1, 4, 2⟩]
    (by norm_num)

/-- C4: `mergeRects` succeeds on every non-empty rectangle list, and the
flush path never consults the fallback for an empty list: the record sets
built by `flushOutlines` do not depend on the rectangle substituted for
the `undefined` merge of an empty list, because every blueprint with no
resolved rectangle is skipped before merging. -/
theorem flush_never_merges_empty :
    (∀ rects : List Rect, rects ≠ [] → (mergeRects rects).isSome = true) ∧
    (∀ (d : Rect) (store : BlueprintStore) (m : RectsMap),
      buildRecordsWith d store m = buildRecords store m) := by
  have hsome : ∀ rects : List Rect, rects ≠ [] → (mergeRects rects).isSome = true := by
    intro rects hne
    match rects with
    | r :: rs =>
      by_cases hl : (r :: rs).length = 1
      · simp [mergeRects, hl]
      · obtain ⟨b, hfold, -⟩ :=
          mergeFold_spec rs ⟨r.x, r.y, r.x + r.width, r.y + r.height⟩
        have hfold' : (r :: rs).foldl mergeStep none = some b := by
          simpa [mergeStep] using hfold
        unfold mergeRects
        rw [if_neg hl, hfold']
        rfl
  refine ⟨hsome, ?_⟩
  intro d store m
  unfold buildRecords buildRecordsWith
  induction store with
  | nil => rfl
  | cons p store ih =>
      simp only [List.filterMap_cons]
      by_cases hr : collectRects p.2 m = []
      · simp [hr, ih]
      · have := hsome (collectRects p.2 m) hr
        obtain ⟨v, hv⟩ := Option.isSome_iff_exists.mp this
        simp [hr, hv, ih]

/-- Witness for C4: a singleton rectangle list merges successfully, and a
concrete flush step is insensitive to the fallback rectangle. -/
theorem flush_never_merges_empty_witness :
    (mergeRects [⟨1, 2, 3, 4⟩]).isSome = true ∧
    buildRecordsWith ⟨9, 9, 9, 9⟩ [(1, ⟨"A", 1, [0], 0⟩)]
        (setRect emptyRectsMap 0 ⟨0, 0, 1, 1⟩) =
      buildRecords [(1, ⟨"A", 1, [0], 0⟩)]
        (setRect emptyRectsMap 0 ⟨0, 0, 1, 1⟩) :=
  ⟨flush_never_merges_empty.1 [⟨1, 2, 3, 4⟩] (by decide),
   flush_never_merges_empty.2 ⟨9, 9, 9, 9⟩ _ _⟩

/-- C10: a render notification for a non-composite fiber, or for a fiber
whose name resolves to null or the empty string, leaves the aggregation
window untouched. -/
theorem outlineFiber_skips_invalid (st : BlueprintStore) (f : FiberInfo)
    (h : f.isComposite = false ∨ resolveName f = none ∨
      resolveName f = some "") :
    outlineFiber st f = st := by
  rcases h with h | h | h
  · simp [outlineFiber, h]
  · unfold outlineFiber
    rw [h]
    split <;> rfl
  · unfold outlineFiber
    rw [h]
    split
    · rfl
    · simp

/-- Witness for C10: a composite fiber whose `type` is the empty string is
not aggregated. -/
theorem outlineFiber_skips_invalid_witness :
    outlineFiber [] ⟨1, true, some "", none, [2], true⟩ = [] :=
  outlineFiber_skips_invalid [] ⟨1, true, some "", none, [2], true⟩
    (Or.inr (Or.inr rfl))

/-- Appending a fresh key to the blueprint map makes it retrievable. -/
theorem lookupStore_append_of_none {st : BlueprintStore} {i : ℕ}
    {bp : BlueprintOutline} (h : lookupStore st i = none) :
    lookupStore (st ++ [(i, bp)]) i = some bp := by
  induction st with
  | nil => simp [lookupStore]
  | cons p st ih =>
      by_cases hp : p.1 = i
      · exfalso
        simp [lookupStore, List.find?_cons, hp] at h
      · simp only [lookupStore, List.find?, List.cons_append] at h ⊢
        rw [show (decide (p.1 = i)) = false from by simp [hp]] at h ⊢
        exact ih h

/-- Replacing the blueprint stored under a present key yields the new
blueprint on lookup. -/
theorem lookupStore_update_self {st : BlueprintStore} {i : ℕ}
    {bp bp' : BlueprintOutline} (h : lookupStore st i = some bp) :
    lookupStore (updateStore st i bp') i = some bp' := by
  induction st with
  | nil => simp [lookupStore] at h
  | cons p st ih =>
      by_cases hp : p.1 = i
      · simp [lookupStore, updateStore, List.find?, hp]
      · simp only [lookupStore, List.find?, updateStore, List.map_cons,
          if_neg hp] at h ⊢
        rw [show (decide (p.1 = i)) = false from by simp [hp]] at h ⊢
        exact ih h

/-- A valid notification for an identity already in the aggregation window
only increments its count. -/
theorem outlineFiber_increments {st : BlueprintStore} {f : FiberInfo} {i : ℕ}
    {bp : BlueprintOutline} (hidf : f.id = i) (hc : f.isComposite = true)
    (hn1 : resolveName f ≠ none) (hn2 : resolveName f ≠ some "")
    (hlk : lookupStore st i = some bp) :
    lookupStore (outlineFiber st f) i =
      some { bp with count := bp.count + 1 } := by
  cases hr : resolveName f with
  | none => exact absurd hr hn1
  | some name =>
      have hname : ¬name = "" := by
        intro h
        exact hn2 (h ▸ hr)
      simp only [outlineFiber, hc, hr]
      rw [if_neg hname, hidf, hlk]
      exact lookupStore_update_self hlk

/-- A valid notification for a fresh identity creates its blueprint with
count 1 and the notification's commit flag. -/
theorem outlineFiber_creates {st : BlueprintStore} {f : FiberInfo} {i : ℕ}
    (hidf : f.id = i) (hc : f.isComposite = true)
    (hn1 : resolveName f ≠ none) (hn2 : resolveName f ≠ some "")
    (hlk : lookupStore st i = none) :
    ∃ name, resolveName f = some name ∧
      lookupStore (outlineFiber st f) i =
        some ⟨name, 1, f.nearestElements, if f.didCommit then 1 else 0⟩ := by
  cases hr : resolveName f with
  | none => exact absurd hr hn1
  | some name =>
      have hname : ¬name = "" := by
        intro h
        exact hn2 (h ▸ hr)
      simp only [outlineFiber, hc, hr]
      rw [if_neg hname, hidf, hlk]
      exact ⟨name, rfl, lookupStore_append_of_none hlk⟩

/-- Folding further valid notifications for a present identity adds their
number to the count and changes nothing else in the blueprint. -/
theorem foldl_outlineFiber_increments {i : ℕ} (rest : List FiberInfo) :
    ∀ (st : BlueprintStore) (bp : BlueprintOutline),
      (∀ f ∈ rest, f.id = i ∧ f.isComposite = true ∧
        resolveName f ≠ none ∧ resolveName f ≠ some "") →
      lookupStore st i = some bp →
      lookupStore (rest.foldl outlineFiber st) i =
        some { bp with count := bp.count + rest.length } := by
  induction rest with
  | nil =>
      intro st bp _ hlk
      simpa using hlk
  | cons f rest ih =>
      intro st bp hall hlk
      obtain ⟨hidf, hc, hn1, hn2⟩ := hall f (List.mem_cons_self f rest)
      have hstep := outlineFiber_increments hidf hc hn1 hn2 hlk
      have := ih (outlineFiber st f) { bp with count := bp.count + 1 }
        (fun g hg => hall g (List.mem_cons_of_mem f hg)) hstep
      simp only [List.foldl_cons, List.length_cons]
      rw [this]
      show some (⟨bp.name, bp.count + 1 + rest.length, bp.elements,
        bp.didCommit⟩ : BlueprintOutline) =
        some (⟨bp.name, bp.count + (rest.length + 1), bp.elements,
          bp.didCommit⟩ : BlueprintOutline)
      rw [show bp.count + 1 + rest.length = bp.count + (rest.length + 1)
        from by omega]

/-- Counterexample to C1: two notifications for identity 1, the first with
`didCommit = false` and the second with `didCommit = true`, leave the
blueprint with `didCommit = 0`, while the OR of the individual flags is
`true` (which the claim would require to be stored as `1`). -/
theorem outlineFiber_didCommit_not_or :
    lookupStore
        (outlineFiber (outlineFiber [] ⟨1, true, some "A", none, [7], false⟩)
          ⟨1, true, some "A", none, [7], true⟩) 1 =
      some ⟨"A", 2, [7], 0⟩ ∧
    (false || true) = true ∧ (0 : ℕ) ≠ 1 := by
  refine ⟨?_, rfl, by omega⟩
  rfl

/-- C1 as amended: for a sequence of N ≥ 1 valid notifications sharing one
fresh identity, the resulting blueprint has `count = N`, and `didCommit`
equal to the *first* notification's flag (later notifications only
increment the count and do not OR in their flags). -/
theorem outlineFiber_aggregation (fs : List FiberInfo) (i : ℕ)
    (st : BlueprintStore) (hne : fs ≠ [])
    (hall : ∀ f ∈ fs, f.id = i ∧ f.isComposite = true ∧
      resolveName f ≠ none ∧ resolveName f ≠ some "")
    (hinit : lookupStore st i = none) :
    ∃ bp, lookupStore (fs.foldl outlineFiber st) i = some bp ∧
      bp.count = fs.length ∧
      bp.didCommit = (if (fs.head hne).didCommit then 1 else 0) := by
  match fs, hne with
  | f :: rest, _ =>
    obtain ⟨hidf, hc, hn1, hn2⟩ := hall f (List.mem_cons_self f rest)
    obtain ⟨name, hr, hcreate⟩ :=
      outlineFiber_creates hidf hc hn1 hn2 hinit
    have hfold := foldl_outlineFiber_increments rest (outlineFiber st f)
      ⟨name, 1, f.nearestElements, if f.didCommit then 1 else 0⟩
      (fun g hg => hall g (List.mem_cons_of_mem f hg)) hcreate
    refine ⟨_, by simpa using hfold, ?_, rfl⟩
    simp [List.length_cons]
    omega

/-- Witness for C1's amended theorem: three notifications for identity 3,
flags true/false/false, produce a blueprint with count 3 and
`didCommit = 1`. -/
theorem outlineFiber_aggregation_witness :
    ∃ bp,
      lookupStore
          ([(⟨3, true, some "B", none, [5], true⟩ : FiberInfo),
            ⟨3, true, some "B", none, [5], false⟩,
            ⟨3, true, some "B", none, [5], false⟩].foldl outlineFiber []) 3 =
        some bp ∧
      bp.count =
        [(⟨3, true, some "B", none, [5], true⟩ : FiberInfo),
          ⟨3, true, some "B", none, [5], false⟩,
          ⟨3, true, some "B", none, [5], false⟩].length ∧
      bp.didCommit =
        (if ([(⟨3, true, some "B", none, [5], true⟩ : FiberInfo),
            ⟨3, true, some "B", none, [5], false⟩,
            ⟨3, true, some "B", none, [5], false⟩].head (by decide)).didCommit
         then 1 else 0) :=
  outlineFiber_aggregation _ 3 [] (by decide)
    (by decide) rfl

/-- The flush loop produces one record set per batch. -/
theorem flushLoop_length (store : BlueprintStore) :
    ∀ (batches : List (List Entry)) (m : RectsMap),
      (flushLoop store m batches).length = batches.length := by
  intro batches
  induction batches with
  | nil => intro m; rfl
  | cons b bs ih =>
      intro m
      simp only [flushLoop, List.length_cons, ih]

/-- The record set emitted after the j-th batch is the recomputation over
the whole blueprint store from the rectangles accumulated through batches
0..j. -/
theorem flushLoop_get (store : BlueprintStore) :
    ∀ (batches : List (List Entry)) (m : RectsMap) (j : ℕ),
      j < batches.length →
      (flushLoop store m batches).get? j =
        some (buildRecords store ((batches.take (j + 1)).foldl applyBatch m)) := by
  intro batches
  induction batches with
  | nil =>
      intro m j hj
      simp at hj
  | cons b bs ih =>
      intro m j hj
      cases j with
      | zero => rfl
      | succ j =>
          have hj' : j < bs.length := by
            simpa using hj
          simpa [flushLoop, List.take] using ih (applyBatch m b) j hj'

/-- C7: within one flush cycle, after each incoming visibility batch — not
only the final one — the record set of every blueprint that currently has
at least one resolved rectangle is recomputed from the accumulated
rectangle map and handed to the renderer before the next batch is
awaited: the j-th emitted set equals the full recomputation from the
rectangles of batches 0..j. -/
theorem flushOutputs_per_batch (store : BlueprintStore)
    (batches : List (List Entry)) :
    (flushOutputs store batches).length = batches.length ∧
    ∀ j, j < batches.length →
      (flushOutputs store batches).get? j =
        some (buildRecords store (rectsAfter (batches.take (j + 1)))) := by
  refine ⟨flushLoop_length store batches emptyRectsMap, ?_⟩
  intro j hj
  exact flushLoop_get store batches emptyRectsMap j hj

/-- Witness for C7 at a concrete two-batch cycle. -/
theorem flushOutputs_per_batch_witness :
    (flushOutputs [(1, ⟨"A", 2, [4], 1⟩)]
        [[⟨4, ⟨0, 0, 2, 2⟩, true⟩], [⟨4, ⟨1, 1, 2, 2⟩, true⟩]]).get? 1 =
      some (buildRecords [(1, ⟨"A", 2, [4], 1⟩)]
        (rectsAfter ([[⟨4, ⟨0, 0, 2, 2⟩, true⟩],
          [⟨4, ⟨1, 1, 2, 2⟩, true⟩]].take 2))) :=
  (flushOutputs_per_batch [(1, ⟨"A", 2, [4], 1⟩)]
      [[⟨4, ⟨0, 0, 2, 2⟩, true⟩], [⟨4, ⟨1, 1, 2, 2⟩, true⟩]]).2 1 (by decide)

/-- An element none of whose entries in a batch qualifies (intersecting
with nonzero area) stays absent from the rectangle map. -/
theorem applyBatch_none {e : ℕ} :
    ∀ (batch : List Entry) (m : RectsMap), m e = none →
      (∀ en ∈ batch, en.target = e →
        ¬(en.isIntersecting = true ∧ en.rect.width ≠ 0 ∧ en.rect.height ≠ 0)) →
      applyBatch m batch e = none := by
  intro batch
  induction batch with
  | nil => intro m hm _; exact hm
  | cons en rest ih =>
      intro m hm h
      simp only [applyBatch, List.foldl_cons]
      by_cases hq : en.isIntersecting = true ∧ en.rect.width ≠ 0 ∧
          en.rect.height ≠ 0
      · rw [if_pos hq]
        have hne : en.target ≠ e := by
          intro he
          exact h en (List.mem_cons_self en rest) he hq
        have hne' : ¬e = en.target := fun hh => hne hh.symm
        have : setRect m en.target en.rect e = none := by
          simp [setRect, hne', hm]
        exact ih (setRect m en.target en.rect) this
          (fun en' hen' => h en' (List.mem_cons_of_mem en hen'))
      · rw [if_neg hq]
        exact ih m hm (fun en' hen' => h en' (List.mem_cons_of_mem en hen'))

/-- Every record built from the store carries the identity of one of the
store's entries. -/
theorem buildRecords_ids_subset (store : BlueprintStore) (m : RectsMap) :
    ∀ r ∈ buildRecords store m, r.id ∈ store.map Prod.fst := by
  induction store with
  | nil => intro r hr; simp [buildRecords, buildRecordsWith] at hr
  | cons p rest ih =>
      intro r hr
      simp only [buildRecords, buildRecordsWith, List.filterMap_cons] at hr
      by_cases hc : collectRects p.2 m = []
      · rw [if_pos hc] at hr
        exact List.mem_cons_of_mem _ (ih r hr)
      · rw [if_neg hc] at hr
        rcases List.mem_cons.mp hr with h | h
        · subst h
          exact List.mem_cons_self _ _
        · exact List.mem_cons_of_mem _ (ih r h)

/-- A blueprint none of whose elements is in the rectangle map contributes
no record: its identity is absent from the built record set. -/
theorem buildRecords_omits {fid : ℕ} {bp : BlueprintOutline} :
    ∀ (store : BlueprintStore) (m : RectsMap),
      (store.map Prod.fst).Nodup → (fid, bp) ∈ store →
      (∀ el ∈ bp.elements, m el = none) →
      fid ∉ (buildRecords store m).map Record.id := by
  intro store
  induction store with
  | nil => intro m _ hmem; simp at hmem
  | cons p rest ih =>
      intro m hkeys hmem hels
      have hcoll : collectRects bp m = [] := by
        simp only [collectRects, List.filterMap_eq_nil_iff]
        exact hels
      have hkeys' : (rest.map Prod.fst).Nodup := by
        simpa using hkeys.of_cons
      rcases List.mem_cons.mp hmem with h | h
      · subst h
        simp only [buildRecords, buildRecordsWith, List.filterMap_cons,
          if_pos hcoll]
        intro hmemid
        obtain ⟨r, hr, hrid⟩ := List.mem_map.mp hmemid
        have : r.id ∈ rest.map Prod.fst := buildRecords_ids_subset rest m r hr
        rw [hrid] at this
        have : fid ∉ rest.map Prod.fst := by
          simpa using (List.nodup_cons.mp hkeys).1
        exact this (hrid ▸ buildRecords_ids_subset rest m r hr)
      · have hne : p.1 ≠ fid := by
          intro he
          have : fid ∈ rest.map Prod.fst :=
            List.mem_map.mpr ⟨(fid, bp), h, rfl⟩
          exact (List.nodup_cons.mp hkeys).1 (he ▸ this)
        have htail := ih m hkeys' h hels
        simp only [buildRecords, buildRecordsWith, List.filterMap_cons]
        by_cases hc : collectRects p.2 m = []
        · rw [if_pos hc]
          exact htail
        · rw [if_neg hc]
          intro hmemid
          rcases List.mem_map.mp hmemid with ⟨r, hr, hrid⟩
          rcases List.mem_cons.mp hr with hh | hh
          · subst hh
            exact hne hrid
          · exact htail (List.mem_map.mpr ⟨r, hh, hrid⟩)

/-- The omission propagates through every intermediate rectangle map of a
flush cycle. -/
theorem flushLoop_omits {fid : ℕ} {bp : BlueprintOutline}
    {store : BlueprintStore} (hkeys : (store.map Prod.fst).Nodup)
    (hmem : (fid, bp) ∈ store) :
    ∀ (batches : List (List Entry)) (m : RectsMap),
      (∀ el ∈ bp.elements, m el = none) →
      (∀ el ∈ bp.elements, ∀ b ∈ batches, ∀ en ∈ b, en.target = el →
        ¬(en.isIntersecting = true ∧ en.rect.width ≠ 0 ∧
          en.rect.height ≠ 0)) →
      ∀ out ∈ flushLoop store m batches, fid ∉ out.map Record.id := by
  intro batches
  induction batches with
  | nil => intro m _ _ out hout; simp [flushLoop] at hout
  | cons b bs ih =>
      intro m hm hnoq out hout
      have hm' : ∀ el ∈ bp.elements, applyBatch m b el = none := by
        intro el hel
        exact applyBatch_none b m (hm el hel)
          (fun en hen => hnoq el hel b (List.mem_cons_self b bs) en hen)
      simp only [flushLoop, List.mem_cons] at hout
      rcases hout with h | h
      · subst h
        exact buildRecords_omits store (applyBatch m b) hkeys hmem hm'
      · exact ih (applyBatch m b) hm'
          (fun el hel b' hb' => hnoq el hel b' (List.mem_cons_of_mem b hb'))
          out h

/-- C8: a blueprint contributes a record only if one of its elements
reported an intersecting rectangle with nonzero width and height in this
cycle.  If every report for its elements was non-intersecting or
zero-area, the elements stay out of the (per-cycle, initially empty)
rectangle map — no stale rectangle is retained — and the blueprint is
silently omitted from every record set the cycle forwards. -/
theorem flush_omits_unresolved (store : BlueprintStore)
    (batches : List (List Entry)) (fid : ℕ) (bp : BlueprintOutline)
    (hkeys : (store.map Prod.fst).Nodup) (hmem : (fid, bp) ∈ store)
    (hnoq : ∀ el ∈ bp.elements, ∀ b ∈ batches, ∀ en ∈ b, en.target = el →
      ¬(en.isIntersecting = true ∧ en.rect.width ≠ 0 ∧
        en.rect.height ≠ 0)) :
    (∀ el ∈ bp.elements, rectsAfter batches el = none) ∧
    (∀ out ∈ flushOutputs store batches, fid ∉ out.map Record.id) := by
  constructor
  · intro el hel
    have : ∀ (bs : List (List Entry)) (m : RectsMap), m el = none →
        (∀ b ∈ bs, ∀ en ∈ b, en.target = el →
          ¬(en.isIntersecting = true ∧ en.rect.width ≠ 0 ∧
            en.rect.height ≠ 0)) →
        bs.foldl applyBatch m el = none := by
      intro bs
      induction bs with
      | nil => intro m hm _; exact hm
      | cons b bs ih =>
          intro m hm hq
          simp only [List.foldl_cons]
          exact ih (applyBatch m b)
            (applyBatch_none b m hm
              (fun en hen => hq b (List.mem_cons_self b bs) en hen))
            (fun b' hb' => hq b' (List.mem_cons_of_mem b hb'))
    exact this batches emptyRectsMap rfl (hnoq el hel)
  · exact flushLoop_omits hkeys hmem batches emptyRectsMap
      (fun _ _ => rfl) hnoq

/-- Witness for C8: one blueprint whose only element reports as
non-intersecting is dropped from the cycle's output. -/
theorem flush_omits_unresolved_witness :
    (∀ el ∈ ([3] : List ℕ),
      rectsAfter [[⟨3, ⟨0, 0, 4, 4⟩, false⟩]] el = none) ∧
    (∀ out ∈ flushOutputs [(5, ⟨"C", 1, [3], 0⟩)]
        [[⟨3, ⟨0, 0, 4, 4⟩, false⟩]],
      5 ∉ out.map Record.id) :=
  flush_omits_unresolved [(5, ⟨"C", 1, [3], 0⟩)]
    [[⟨3, ⟨0, 0, 4, 4⟩, false⟩]] 5 ⟨"C", 1, [3], 0⟩
    (by decide) (by decide) (by decide)

/-- Writing the seven fields of a record at the start of a zeroed 7-slot
block turns that block into the record's encoding. -/
theorem writeRecordAt_append (pre rest : List ℚ) (r : Record) :
    writeRecordAt (pre ++ ((0 : ℚ) :: 0 :: 0 :: 0 :: 0 :: 0 :: 0 :: rest))
        pre.length r =
      pre ++ (encodeRecord r ++ rest) := by
  simp [writeRecordAt, List.set_append, encodeRecord]

/-- The worker fill loop, run over a zeroed tail, appends the encodings of
the remaining records after the already-filled prefix. -/
theorem fillBufferAux_spec (rs : List Record) :
    ∀ (pre : List ℚ) (k : ℕ), pre.length = k * OUTLINE_ARRAY_SIZE →
      fillBufferAux k (pre ++ List.replicate (rs.length * OUTLINE_ARRAY_SIZE) 0) rs =
        pre ++ (rs.map encodeRecord).flatten := by
  induction rs with
  | nil =>
      intro pre k _
      simp [fillBufferAux]
  | cons r rs ih =>
      intro pre k hk
      have hsplit :
          List.replicate ((r :: rs).length * OUTLINE_ARRAY_SIZE) (0 : ℚ) =
            ((0 : ℚ) :: 0 :: 0 :: 0 :: 0 :: 0 :: 0 :: []) ++
              List.replicate (rs.length * OUTLINE_ARRAY_SIZE) 0 := by
        have he : (r :: rs).length * OUTLINE_ARRAY_SIZE =
            7 + rs.length * OUTLINE_ARRAY_SIZE := by
          simp only [OUTLINE_ARRAY_SIZE, List.length_cons]
          ring
        rw [he, List.replicate_add]
        rfl
      rw [hsplit]
      show fillBufferAux (k + 1)
          (writeRecordAt
            (pre ++ (((0 : ℚ) :: 0 :: 0 :: 0 :: 0 :: 0 :: 0 :: []) ++
              List.replicate (rs.length * OUTLINE_ARRAY_SIZE) 0))
            (k * OUTLINE_ARRAY_SIZE) r) rs =
        pre ++ ((r :: rs).map encodeRecord).flatten
      have hassoc :
          pre ++ (((0 : ℚ) :: 0 :: 0 :: 0 :: 0 :: 0 :: 0 :: []) ++
            List.replicate (rs.length * OUTLINE_ARRAY_SIZE) 0) =
          pre ++ ((0 : ℚ) :: 0 :: 0 :: 0 :: 0 :: 0 :: 0 ::
            List.replicate (rs.length * OUTLINE_ARRAY_SIZE) 0) := by
        simp
      have hpre' : (pre ++ encodeRecord r).length = (k + 1) * OUTLINE_ARRAY_SIZE := by
        simp only [List.length_append, encodeRecord, List.length_cons,
          List.length_nil, hk, OUTLINE_ARRAY_SIZE]
        ring
      rw [hassoc, ← hk, writeRecordAt_append, ← List.append_assoc]
      rw [ih (pre ++ encodeRecord r) (k + 1) hpre']
      simp

/-- The filled buffer is the concatenation of the per-record 7-field
encodings, in record order. -/
theorem fillBuffer_eq_flatten (records : List Record) :
    fillBuffer records = (records.map encodeRecord).flatten := by
  have := fillBufferAux_spec records [] 0 rfl
  simpa [fillBuffer] using this

/-- The flattened encoding has 7 slots per record. -/
theorem encodeFlatten_length (records : List Record) :
    ((records.map encodeRecord).flatten).length = records.length * 7 := by
  induction records with
  | nil => rfl
  | cons r rs ih =>
      simp only [List.map_cons, List.flatten_cons, List.length_append, ih,
        List.length_cons]
      simp [encodeRecord]
      ring

/-- Indexing into the flattened encoding: slot `i * 7 + k` belongs to
field `k` of record `i`. -/
theorem encodeFlatten_get (records : List Record) :
    ∀ (i k : ℕ) (r : Record), records[i]? = some r → k < 7 →
      ((records.map encodeRecord).flatten)[i * 7 + k]? =
        (encodeRecord r)[k]? := by
  induction records with
  | nil => intro i k r hr; simp at hr
  | cons r' rs ih =>
      intro i k r hr hk
      cases i with
      | zero =>
          simp only [List.getElem?_cons_zero, Option.some.injEq] at hr
          subst hr
          simp only [List.map_cons, List.flatten_cons, Nat.zero_mul,
            Nat.zero_add]
          rw [List.getElem?_append_left]
          simp [encodeRecord, hk]
      | succ i =>
          simp only [List.getElem?_cons_succ] at hr
          simp only [List.map_cons, List.flatten_cons]
          have harith : (i + 1) * 7 + k = (encodeRecord r').length + (i * 7 + k) := by
            simp [encodeRecord]
            ring
          rw [harith, List.getElem?_append_right (by omega)]
          have : (encodeRecord r').length + (i * 7 + k) - (encodeRecord r').length =
              i * 7 + k := by omega
          rw [this]
          exact ih i k r hr hk

/-- C6: the worker-variant dispatch posts one `draw-outlines` message
whose flat buffer has exactly `records.length × 7` 32-bit slots
(`records.length × 7 × 4` bytes), with record `i`'s fields at offsets
`i*7 .. i*7+6` in the order id, count, x, y, width, height, didCommit,
and a parallel name list with `names[i]` the name of record `i`. -/
theorem workerDispatch_layout (records : List Record) :
    (workerDispatch records).type = "draw-outlines" ∧
    (workerDispatch records).data.length = records.length * 7 ∧
    4 * (workerDispatch records).data.length = records.length * 7 * 4 ∧
    ∀ (i : ℕ) (r : Record), records[i]? = some r →
      (workerDispatch records).data[i * 7]? = some (r.id : ℚ) ∧
      (workerDispatch records).data[i * 7 + 1]? = some (r.count : ℚ) ∧
      (workerDispatch records).data[i * 7 + 2]? = some r.x ∧
      (workerDispatch records).data[i * 7 + 3]? = some r.y ∧
      (workerDispatch records).data[i * 7 + 4]? = some r.width ∧
      (workerDispatch records).data[i * 7 + 5]? = some r.height ∧
      (workerDispatch records).data[i * 7 + 6]? = some (r.didCommit : ℚ) ∧
      (workerDispatch records).names[i]? = some r.name := by
  have hdata : (workerDispatch records).data =
      (records.map encodeRecord).flatten := fillBuffer_eq_flatten records
  have hlen : (workerDispatch records).data.length = records.length * 7 := by
    rw [hdata, encodeFlatten_length]
  refine ⟨rfl, hlen, by rw [hlen]; ring, ?_⟩
  intro i r hr
  have hget : ∀ k, k < 7 →
      (workerDispatch records).data[i * 7 + k]? = (encodeRecord r)[k]? := by
    intro k hk
    rw [hdata]
    exact encodeFlatten_get records i k r hr hk
  have h0 := hget 0 (by omega)
  rw [Nat.add_zero] at h0
  refine ⟨h0, hget 1 (by omega), hget 2 (by omega), hget 3 (by omega),
    hget 4 (by omega), hget 5 (by omega), hget 6 (by omega), ?_⟩
  show (records.map (fun r => r.name))[i]? = some r.name
  rw [List.getElem?_map, hr]
  rfl

/-- Witness for C6: the second of two concrete records sits at buffer
offset 7 with its name at index 1. -/
theorem workerDispatch_layout_witness :
    (workerDispatch [⟨1, "A", 2, 3, 4, 5, 6, 1⟩, ⟨8, "B", 9, 10, 11, 12, 13, 0⟩]).data[1 * 7]? =
      some ((8 : ℕ) : ℚ) ∧
    (workerDispatch [⟨1, "A", 2, 3, 4, 5, 6, 1⟩, ⟨8, "B", 9, 10, 11, 12, 13, 0⟩]).data[1 * 7 + 1]? =
      some ((9 : ℕ) : ℚ) ∧
    (workerDispatch [⟨1, "A", 2, 3, 4, 5, 6, 1⟩, ⟨8, "B", 9, 10, 11, 12, 13, 0⟩]).data[1 * 7 + 2]? =
      some (10 : ℚ) ∧
    (workerDispatch [⟨1, "A", 2, 3, 4, 5, 6, 1⟩, ⟨8, "B", 9, 10, 11, 12, 13, 0⟩]).data[1 * 7 + 3]? =
      some (11 : ℚ) ∧
    (workerDispatch [⟨1, "A", 2, 3, 4, 5, 6, 1⟩, ⟨8, "B", 9, 10, 11, 12, 13, 0⟩]).data[1 * 7 + 4]? =
      some (12 : ℚ) ∧
    (workerDispatch [⟨1, "A", 2, 3, 4, 5, 6, 1⟩, ⟨8, "B", 9, 10, 11, 12, 13, 0⟩]).data[1 * 7 + 5]? =
      some (13 : ℚ) ∧
    (workerDispatch [⟨1, "A", 2, 3, 4, 5, 6, 1⟩, ⟨8, "B", 9, 10, 11, 12, 13, 0⟩]).data[1 * 7 + 6]? =
      some ((0 : ℕ) : ℚ) ∧
    (workerDispatch [⟨1, "A", 2, 3, 4, 5, 6, 1⟩, ⟨8, "B", 9, 10, 11, 12, 13, 0⟩]).names[1]? =
      some "B" :=
  (workerDispatch_layout
      [⟨1, "A", 2, 3, 4, 5, 6, 1⟩, ⟨8, "B", 9, 10, 11, 12, 13, 0⟩]).2.2.2 1
    ⟨8, "B", 9, 10, 11, 12, 13, 0⟩ rfl

/-- The filtering loop of `onIntersect`: the seen-set grows by exactly the
batch's targets, and the forwarded entries are the batch's first
occurrences of previously unseen targets, without duplicates. -/
theorem scanEntries_spec :
    ∀ (entries : List Entry) (seen : Finset ℕ),
      (scanEntries seen entries).1 = seen ∪ (entries.map Entry.target).toFinset ∧
      ((scanEntries seen entries).2.map Entry.target).Nodup ∧
      (∀ e, e ∈ (scanEntries seen entries).2.map Entry.target ↔
        (e ∈ entries.map Entry.target ∧ e ∉ seen)) := by
  intro entries
  induction entries with
  | nil =>
      intro seen
      refine ⟨by simp [scanEntries], by simp [scanEntries], ?_⟩
      intro e
      simp [scanEntries]
  | cons en rest ih =>
      intro seen
      by_cases hseen : en.target ∈ seen
      · obtain ⟨h1, h2, h3⟩ := ih seen
        have hred : scanEntries seen (en :: rest) = scanEntries seen rest := by
          simp [scanEntries, hseen]
        refine ⟨?_, hred ▸ h2, ?_⟩
        · rw [hred, h1, List.map_cons, List.toFinset_cons]
          rw [Finset.union_insert]
          rw [Finset.insert_eq_self.mpr (Finset.mem_union_left _ hseen)]
        · intro e
          rw [hred, h3]
          constructor
          · rintro ⟨hmem, hnot⟩
            exact ⟨by rw [List.map_cons]; exact List.mem_cons_of_mem _ hmem,
              hnot⟩
          · rintro ⟨hmem, hnot⟩
            rw [List.map_cons] at hmem
            rcases List.mem_cons.mp hmem with h | h
            · exact absurd (h ▸ hseen) hnot
            · exact ⟨h, hnot⟩
      · obtain ⟨h1, h2, h3⟩ := ih (insert en.target seen)
        have hred : scanEntries seen (en :: rest) =
            ((scanEntries (insert en.target seen) rest).1,
             en :: (scanEntries (insert en.target seen) rest).2) := by
          simp [scanEntries, hseen]
        refine ⟨?_, ?_, ?_⟩
        · rw [hred, h1, List.map_cons, List.toFinset_cons]
          rw [Finset.insert_union, Finset.union_insert]
        · rw [hred]
          simp only [List.map_cons, List.nodup_cons]
          refine ⟨?_, h2⟩
          intro hmem
          obtain ⟨-, hnot⟩ := (h3 en.target).mp hmem
          exact hnot (Finset.mem_insert_self _ _)
        · intro e
          rw [hred]
          simp only [List.map_cons, List.mem_cons]
          constructor
          · rintro (h | h)
            · exact ⟨Or.inl h, h ▸ hseen⟩
            · obtain ⟨hmem, hnot⟩ := (h3 e).mp h
              refine ⟨Or.inr hmem, ?_⟩
              intro hcon
              exact hnot (Finset.mem_insert_of_mem hcon)
          · rintro ⟨hmem | hmem, hnot⟩
            · exact Or.inl hmem
            · by_cases he : e = en.target
              · exact Or.inl he
              · refine Or.inr ((h3 e).mpr ⟨hmem, ?_⟩)
                intro hcon
                rcases Finset.mem_insert.mp hcon with h | h
                · exact he h
                · exact hnot h

/-- `onIntersect` always stores the grown seen-set. -/
theorem onIntersect_seen (s : IState) (b : List Entry) :
    (onIntersect s b).1.seen = (scanEntries s.seen b).1 := by
  by_cases h : (scanEntries s.seen b).1.card = s.unique.card <;>
    simp [onIntersect, h]

/-- `onIntersect` never changes the watched element set. -/
theorem onIntersect_unique (s : IState) (b : List Entry) :
    (onIntersect s b).1.unique = s.unique := by
  by_cases h : (scanEntries s.seen b).1.card = s.unique.card <;>
    simp [onIntersect, h]

/-- `onIntersect` forwards exactly the filtered entries. -/
theorem onIntersect_snd (s : IState) (b : List Entry) :
    (onIntersect s b).2 = (scanEntries s.seen b).2 := by
  by_cases h : (scanEntries s.seen b).1.card = s.unique.card <;>
    simp [onIntersect, h]

/-- When the grown seen-set reaches the size of the watched set, the
callback disconnects the observer and ends the pass. -/
theorem onIntersect_done (s : IState) (b : List Entry)
    (h : (scanEntries s.seen b).1.card = s.unique.card) :
    (onIntersect s b).1.done = true ∧
    (onIntersect s b).1.disconnected = true := by
  unfold onIntersect
  rw [if_pos h]
  exact ⟨rfl, rfl⟩

/-- Invariant of one resolution pass: the watched set is constant, the
seen-set accumulates exactly the delivered targets, the yielded entries
are duplicate-free and are exactly the delivered targets not seen before
the pass state, and if the last delivered batch completes coverage the
pass ends disconnected. -/
theorem runResolver_spec :
    ∀ (batches : List (List Entry)) (s : IState),
      s.seen ⊆ s.unique →
      (∀ b ∈ batches, ∀ en ∈ b, en.target ∈ s.unique) →
      (runResolver s batches).1.unique = s.unique ∧
      (runResolver s batches).1.seen =
        s.seen ∪ (batches.flatten.map Entry.target).toFinset ∧
      ((runResolver s batches).2.flatten.map Entry.target).Nodup ∧
      (∀ e, e ∈ (runResolver s batches).2.flatten.map Entry.target ↔
        (e ∈ batches.flatten.map Entry.target ∧ e ∉ s.seen)) ∧
      (batches ≠ [] →
        (runResolver s batches).1.seen.card = s.unique.card →
        (runResolver s batches).1.done = true ∧
        (runResolver s batches).1.disconnected = true) := by
  intro batches
  induction batches with
  | nil =>
      intro s _ _
      refine ⟨rfl, by simp [runResolver], by simp [runResolver], ?_, ?_⟩
      · intro e
        simp [runResolver]
      · intro h
        exact absurd rfl h
  | cons b bs ih =>
      intro s hsub hall
      have hred : runResolver s (b :: bs) =
          ((runResolver (onIntersect s b).1 bs).1,
           if (onIntersect s b).2 = []
           then (runResolver (onIntersect s b).1 bs).2
           else (onIntersect s b).2 :: (runResolver (onIntersect s b).1 bs).2) :=
        rfl
      obtain ⟨hs1, hs2, hs3⟩ := scanEntries_spec b s.seen
      have hbT : ∀ e, e ∈ (b.map Entry.target).toFinset → e ∈ s.unique := by
        intro e he
        obtain ⟨en, hen, hte⟩ := List.mem_map.mp (List.mem_toFinset.mp he)
        exact hte ▸ hall b (List.mem_cons_self b bs) en hen
      have hseen' : (onIntersect s b).1.seen =
          s.seen ∪ (b.map Entry.target).toFinset := by
        rw [onIntersect_seen, hs1]
      have hsub' : (onIntersect s b).1.seen ⊆ (onIntersect s b).1.unique := by
        rw [hseen', onIntersect_unique]
        intro e he
        rcases Finset.mem_union.mp he with h | h
        · exact hsub h
        · exact hbT e h
      have hall' : ∀ b' ∈ bs, ∀ en ∈ b', en.target ∈ (onIntersect s b).1.unique := by
        rw [onIntersect_unique]
        intro b' hb'
        exact hall b' (List.mem_cons_of_mem b hb')
      obtain ⟨ih1, ih2, ih3, ih4, ih5⟩ := ih (onIntersect s b).1 hsub' hall'
      have huniq : (runResolver s (b :: bs)).1.unique = s.unique := by
        rw [hred]
        rw [show ((runResolver (onIntersect s b).1 bs).1,
            if (onIntersect s b).2 = []
            then (runResolver (onIntersect s b).1 bs).2
            else (onIntersect s b).2 ::
              (runResolver (onIntersect s b).1 bs).2).1 =
          (runResolver (onIntersect s b).1 bs).1 from rfl]
        rw [ih1, onIntersect_unique]
      have hflat : (b :: bs).flatten = b ++ bs.flatten := rfl
      have hseenF : (runResolver s (b :: bs)).1.seen =
          s.seen ∪ ((b :: bs).flatten.map Entry.target).toFinset := by
        rw [hred]
        show (runResolver (onIntersect s b).1 bs).1.seen = _
        rw [ih2, hseen', hflat, List.map_append, List.toFinset_append,
          Finset.union_assoc]
      refine ⟨huniq, hseenF, ?_, ?_, ?_⟩
      · rw [hred]
        by_cases hne : (onIntersect s b).2 = []
        · rw [if_pos hne]
          exact ih3
        · rw [if_neg hne]
          show (((onIntersect s b).2 ++
            (runResolver (onIntersect s b).1 bs).2.flatten).map
              Entry.target).Nodup
          rw [List.map_append]
          rw [List.nodup_append]
          refine ⟨onIntersect_snd s b ▸ hs2, ih3, ?_⟩
          intro e he hmem
          rw [onIntersect_snd] at he
          obtain ⟨-, hnot⟩ := (hs3 e).mp he
          obtain ⟨-, hnot'⟩ := (ih4 e).mp hmem
          rw [hseen'] at hnot'
          have : e ∈ (b.map Entry.target).toFinset :=
            List.mem_toFinset.mpr ((hs3 e).mp he).1
          exact hnot' (Finset.mem_union_right _ this)
      · intro e
        rw [hred]
        by_cases hne : (onIntersect s b).2 = []
        · rw [if_pos hne]
          have hcov : ∀ x, x ∈ b.map Entry.target → x ∈ s.seen := by
            intro x hx
            by_contra hnx
            have : x ∈ (scanEntries s.seen b).2.map Entry.target :=
              (hs3 x).mpr ⟨hx, hnx⟩
            rw [← onIntersect_snd, hne] at this
            simp at this
          rw [ih4 e, hseen', hflat, List.map_append]
          constructor
          · rintro ⟨hmem, hnot⟩
            refine ⟨List.mem_append_right _ hmem, ?_⟩
            intro hc
            exact hnot (Finset.mem_union_left _ hc)
          · rintro ⟨hmem, hnot⟩
            rcases List.mem_append.mp hmem with h | h
            · exact absurd (hcov e h) hnot
            · refine ⟨h, ?_⟩
              intro hc
              rcases Finset.mem_union.mp hc with h' | h'
              · exact hnot h'
              · exact hnot (hcov e (List.mem_toFinset.mp h'))
        · rw [if_neg hne]
          show e ∈ (((onIntersect s b).2 ++
              (runResolver (onIntersect s b).1 bs).2.flatten).map
                Entry.target) ↔ _
          rw [List.map_append, List.mem_append, onIntersect_snd, hs3 e,
            ih4 e, hseen', hflat, List.map_append]
          constructor
          · rintro (⟨hmem, hnot⟩ | ⟨hmem, hnot⟩)
            · exact ⟨List.mem_append_left _ hmem, hnot⟩
            · refine ⟨List.mem_append_right _ hmem, ?_⟩
              intro hc
              exact hnot (Finset.mem_union_left _ hc)
          · rintro ⟨hmem, hnot⟩
            rcases List.mem_append.mp hmem with h | h
            · exact Or.inl ⟨h, hnot⟩
            · by_cases hbmem : e ∈ b.map Entry.target
              · exact Or.inl ⟨hbmem, hnot⟩
              · refine Or.inr ⟨h, ?_⟩
                intro hc
                rcases Finset.mem_union.mp hc with h' | h'
                · exact hnot h'
                · exact hbmem (List.mem_toFinset.mp h')
      · intro _ hcard
        rw [hred] at hcard ⊢
        cases bs with
        | nil =>
            have hcard' : (scanEntries s.seen b).1.card = s.unique.card := by
              have h1 : (onIntersect s b).1.seen.card = s.unique.card := hcard
              rw [onIntersect_seen] at h1
              exact h1
            exact onIntersect_done s b hcard'
        | cons b' bs' =>
            have hcard' : (runResolver (onIntersect s b).1 (b' :: bs')).1.seen.card =
                (onIntersect s b).1.unique.card := by
              rw [onIntersect_unique]
              exact hcard
            exact ih5 (List.cons_ne_nil b' bs') hcard'

/-- Counterexample to C5 at K = 0: with no elements to watch, no callback
ever fires, so although all zero elements have (vacuously) reported, the
pass never sets `done` and never disconnects — `getBatchedRectMap([])`
awaits forever. -/
theorem resolver_zero_elements_never_disconnects :
    (runResolver (initState ∅) []).1.seen = (initState ∅).unique ∧
    (runResolver (initState ∅) []).1.done = false ∧
    (runResolver (initState ∅) []).1.disconnected = false :=
  ⟨rfl, rfl, rfl⟩

/-- C5 as amended (K ≥ 1): for a non-empty set of distinct elements, a
resolution pass in which every element eventually reports yields each
element exactly once across all batches (first report authoritative, no
element in two yielded batches), and ends with the pass done and the
observer disconnected, regardless of how the host groups callbacks. -/
theorem resolver_reports_each_once (unique : Finset ℕ)
    (batches : List (List Entry)) (hne : unique.Nonempty)
    (hsub : ∀ b ∈ batches, ∀ en ∈ b, en.target ∈ unique)
    (hcov : ∀ e ∈ unique, ∃ b ∈ batches, ∃ en ∈ b, en.target = e) :
    (∀ e ∈ unique,
      ((runResolver (initState unique) batches).2.flatten.map
        Entry.target).count e = 1) ∧
    ((runResolver (initState unique) batches).2.flatten.map
      Entry.target).Nodup ∧
    (runResolver (initState unique) batches).1.done = true ∧
    (runResolver (initState unique) batches).1.disconnected = true := by
  have hinit_sub : (initState unique).seen ⊆ (initState unique).unique := by
    intro e he
    simp [initState] at he
  obtain ⟨h1, h2, h3, h4, h5⟩ :=
    runResolver_spec batches (initState unique) hinit_sub hsub
  have hTcov : ∀ e ∈ unique, e ∈ batches.flatten.map Entry.target := by
    intro e he
    obtain ⟨b, hb, en, hen, hte⟩ := hcov e he
    exact List.mem_map.mpr ⟨en, List.mem_flatten.mpr ⟨b, hb, hen⟩, hte⟩
  have htf : (batches.flatten.map Entry.target).toFinset = unique := by
    ext e
    constructor
    · intro he
      obtain ⟨en, hen, hte⟩ := List.mem_map.mp (List.mem_toFinset.mp he)
      obtain ⟨b, hb, henb⟩ := List.mem_flatten.mp hen
      exact hte ▸ hsub b hb en henb
    · intro he
      exact List.mem_toFinset.mpr (hTcov e he)
  have hseen : (runResolver (initState unique) batches).1.seen = unique := by
    rw [h2, htf]
    exact Finset.empty_union unique
  have hbne : batches ≠ [] := by
    obtain ⟨e, he⟩ := hne
    obtain ⟨b, hb, -⟩ := hcov e he
    intro hnil
    rw [hnil] at hb
    exact absurd hb (List.not_mem_nil b)
  have hdone := h5 hbne (by rw [hseen]; rfl)
  refine ⟨?_, h3, hdone.1, hdone.2⟩
  intro e he
  have hmem : e ∈ (runResolver (initState unique) batches).2.flatten.map
      Entry.target :=
    (h4 e).mpr ⟨hTcov e he, by simp [initState]⟩
  exact List.count_eq_one_of_mem h3 hmem

/-- Witness for C5's amended theorem: two elements, reported across two
host batches with a duplicate report for the first element filtered out. -/
theorem resolver_reports_each_once_witness :
    (∀ e ∈ ({1, 2} : Finset ℕ),
      ((runResolver (initState {1, 2})
        [[⟨1, ⟨0, 0, 1, 1⟩, true⟩],
         [⟨2, ⟨0, 0, 1, 1⟩, false⟩, ⟨1, ⟨5, 5, 1, 1⟩, true⟩]]).2.flatten.map
        Entry.target).count e = 1) ∧
    ((runResolver (initState {1, 2})
      [[⟨1, ⟨0, 0, 1, 1⟩, true⟩],
       [⟨2, ⟨0, 0, 1, 1⟩, false⟩, ⟨1, ⟨5, 5, 1, 1⟩, true⟩]]).2.flatten.map
      Entry.target).Nodup ∧
    (runResolver (initState {1, 2})
      [[⟨1, ⟨0, 0, 1, 1⟩, true⟩],
       [⟨2, ⟨0, 0, 1, 1⟩, false⟩, ⟨1, ⟨5, 5, 1, 1⟩, true⟩]]).1.done = true ∧
    (runResolver (initState {1, 2})
      [[⟨1, ⟨0, 0, 1, 1⟩, true⟩],
       [⟨2, ⟨0, 0, 1, 1⟩, false⟩, ⟨1, ⟨5, 5, 1, 1⟩, true⟩]]).1.disconnected =
      true :=
  resolver_reports_each_once {1, 2}
    [[⟨1, ⟨0, 0, 1, 1⟩, true⟩],
     [⟨2, ⟨0, 0, 1, 1⟩, false⟩, ⟨1, ⟨5, 5, 1, 1⟩, true⟩]]
    (by decide) (by decide) (by decide)

/-- Unfolding property lookup over one field. -/
theorem lookupOpt_cons (p : String × JSVal) (o : OptObj) (k : String) :
    lookupOpt (p :: o) k = if p.1 = k then some p.2 else lookupOpt o k := by
  by_cases h : p.1 = k <;> simp [lookupOpt, List.find?, h]

/-- Replacing the value under key `k` in place makes it the looked-up
value. -/
theorem lookup_replace_self :
    ∀ (o : OptObj) (k : String) (v : JSVal), hasKey o k = true →
      lookupOpt (o.map (fun p => if p.1 = k then (k, v) else p)) k = some v := by
  intro o
  induction o with
  | nil => intro k v h; simp [hasKey, lookupOpt] at h
  | cons p rest ih =>
      intro k v h
      by_cases hp : p.1 = k
      · simp only [List.map_cons, if_pos hp]
        rw [lookupOpt_cons]
        simp
      · simp only [List.map_cons, if_neg hp]
        rw [lookupOpt_cons, if_neg hp]
        apply ih
        simp only [hasKey, lookupOpt_cons, if_neg hp] at h
        exact h

/-- Appending a fresh field makes it the looked-up value. -/
theorem lookup_append_single_self :
    ∀ (o : OptObj) (k : String) (v : JSVal), hasKey o k = false →
      lookupOpt (o ++ [(k, v)]) k = some v := by
  intro o
  induction o with
  | nil => intro k v _; simp [lookupOpt, List.find?]
  | cons p rest ih =>
      intro k v h
      simp only [hasKey, lookupOpt_cons] at h
      by_cases hp : p.1 = k
      · rw [if_pos hp] at h
        simp at h
      · rw [if_neg hp] at h
        rw [List.cons_append, lookupOpt_cons, if_neg hp]
        exact ih k v h

/-- Assigning key `k` leaves every other key's value unchanged. -/
theorem lookup_assign_other :
    ∀ (o : OptObj) (k : String) (v : JSVal) (q : String), q ≠ k →
      lookupOpt (assignOpt o k v) q = lookupOpt o q := by
  intro o k v q hq
  unfold assignOpt
  by_cases h : hasKey o k
  · rw [if_pos h]
    clear h
    induction o with
    | nil => rfl
    | cons p rest ih =>
        simp only [List.map_cons]
        by_cases hp : p.1 = k
        · rw [if_pos hp, lookupOpt_cons, lookupOpt_cons]
          have h1 : ¬(k = q) := fun hh => hq hh.symm
          have h2 : ¬(p.1 = q) := fun hh => hq (hp ▸ hh).symm
          rw [if_neg h1, if_neg h2, ih]
        · rw [if_neg hp, lookupOpt_cons, lookupOpt_cons, ih]
  · rw [if_neg h]
    clear h
    induction o with
    | nil =>
        rw [List.nil_append, lookupOpt_cons, if_neg (fun hh => hq hh.symm)]
    | cons p rest ih =>
        rw [List.cons_append, lookupOpt_cons, lookupOpt_cons, ih]

/-- Assigning key `k` makes `v` its looked-up value. -/
theorem lookup_assign_self (o : OptObj) (k : String) (v : JSVal) :
    lookupOpt (assignOpt o k v) k = some v := by
  unfold assignOpt
  by_cases h : hasKey o k
  · rw [if_pos h]
    exact lookup_replace_self o k v h
  · rw [if_neg h]
    exact lookup_append_single_self o k v (by simpa using h)

/-- A key is absent exactly when it is not among the object's keys. -/
theorem hasKey_false_iff :
    ∀ (o : OptObj) (k : String), hasKey o k = false ↔ k ∉ o.map Prod.fst := by
  intro o k
  induction o with
  | nil => simp [hasKey, lookupOpt]
  | cons p rest ih =>
      simp only [hasKey, lookupOpt_cons, List.map_cons, List.mem_cons]
      by_cases hp : p.1 = k
      · rw [if_pos hp]
        simp [hp]
      · rw [if_neg hp]
        simp only [hasKey] at ih
        rw [ih]
        constructor
        · intro h hc
          rcases hc with hc | hc
          · exact hp hc.symm
          · exact h hc
        · intro h hc
          exact h (Or.inr hc)

/-- In an object with distinct keys, a key determines its value. -/
theorem nodup_key_unique :
    ∀ (o : OptObj), (o.map Prod.fst).Nodup →
      ∀ {k : String} {v w : JSVal}, (k, v) ∈ o → (k, w) ∈ o → v = w := by
  intro o
  induction o with
  | nil => intro _ k v w hv; simp at hv
  | cons p rest ih =>
      intro hnd k v w hv hw
      obtain ⟨hhead, htail⟩ := List.nodup_cons.mp
        (show (p.1 :: rest.map Prod.fst).Nodup from by simpa using hnd)
      rcases List.mem_cons.mp hv with hv | hv <;>
        rcases List.mem_cons.mp hw with hw | hw
      · exact congrArg Prod.snd (hv.trans hw.symm)
      · exfalso
        apply hhead
        have hk1 : p.1 = k := by rw [← hv]
        rw [hk1]
        exact List.mem_map.mpr ⟨(k, w), hw, rfl⟩
      · exfalso
        apply hhead
        have hk1 : p.1 = k := by rw [← hw]
        rw [hk1]
        exact List.mem_map.mpr ⟨(k, v), hv, rfl⟩
      · exact ih htail hv hw

/-- Anatomy of an accepted field: it stems from an input field with the
same key, whose key is currently known and whose value the switch
accepted. -/
theorem validateOptions_mem :
    ∀ (current input : OptObj) (q : String × JSVal),
      q ∈ validateOptions current input →
      ∃ p ∈ input, p.1 = q.1 ∧ isOptionKey current p.1 = true ∧
        switchValidate p.1 p.2 = some q.2 := by
  intro current input q hq
  obtain ⟨p, hp, hf⟩ := List.mem_filterMap.mp hq
  by_cases hk : isOptionKey current p.1 = false
  · rw [if_pos hk] at hf
    exact absurd hf (by simp)
  · rw [if_neg hk] at hf
    cases hsv : switchValidate p.1 p.2 with
    | none =>
        rw [hsv] at hf
        exact absurd hf (by simp)
    | some v =>
        rw [hsv] at hf
        simp only [Option.map_some', Option.some.injEq] at hf
        refine ⟨p, hp, ?_, by simpa using hk, ?_⟩
        · rw [← hf]
        · rw [hsv, ← hf]

/-- The accepted fields' keys form a sublist of the input keys. -/
theorem validate_keys_sublist :
    ∀ (current input : OptObj),
      ((validateOptions current input).map Prod.fst).Sublist
        (input.map Prod.fst) := by
  intro current input
  induction input with
  | nil => simp [validateOptions]
  | cons p rest ih =>
      simp only [validateOptions, List.filterMap_cons, List.map_cons]
      by_cases hk : isOptionKey current p.1 = false
      · rw [if_pos hk]
        exact ih.cons p.1
      · rw [if_neg hk]
        cases hsv : switchValidate p.1 p.2 with
        | none =>
            simp only [Option.map_none']
            exact ih.cons p.1
        | some v =>
            simp only [Option.map_some', List.map_cons]
            exact ih.cons₂ p.1

/-- Spreading an update object without key `k` leaves `k`'s value
unchanged. -/
theorem lookup_spread_absent :
    ∀ (upd base : OptObj) (k : String), hasKey upd k = false →
      lookupOpt (spreadOpts base upd) k = lookupOpt base k := by
  intro upd
  induction upd with
  | nil => intro base k _; rfl
  | cons p rest ih =>
      intro base k h
      rw [hasKey_false_iff] at h
      simp only [List.map_cons, List.mem_cons] at h
      push_neg at h
      show lookupOpt (spreadOpts (assignOpt base p.1 p.2) rest) k =
        lookupOpt base k
      rw [ih (assignOpt base p.1 p.2) k
        ((hasKey_false_iff rest k).mpr h.2)]
      exact lookup_assign_other base p.1 p.2 k h.1

/-- Spreading an update object with distinct keys yields each of its
fields on lookup. -/
theorem lookup_spread_mem :
    ∀ (upd base : OptObj) (k : String) (v : JSVal),
      (upd.map Prod.fst).Nodup → (k, v) ∈ upd →
      lookupOpt (spreadOpts base upd) k = some v := by
  intro upd
  induction upd with
  | nil => intro base k v _ hm; simp at hm
  | cons p rest ih =>
      intro base k v hnd hm
      obtain ⟨hhead, htail⟩ := List.nodup_cons.mp
        (show (p.1 :: rest.map Prod.fst).Nodup from by simpa using hnd)
      show lookupOpt (spreadOpts (assignOpt base p.1 p.2) rest) k = some v
      rcases List.mem_cons.mp hm with h | h
      · have hk1 : p.1 = k := by rw [← h]
        have hv : p.2 = v := by rw [← h]
        have hnk : hasKey rest k = false := by
          rw [hasKey_false_iff]
          rw [← hk1]
          exact hhead
        rw [lookup_spread_absent rest (assignOpt base p.1 p.2) k hnk,
          ← hk1, ← hv]
        exact lookup_assign_self base p.1 p.2
      · exact ih (assignOpt base p.1 p.2) k v htail h

/-- C9 as amended: option fields are validated individually — every field
whose key is present in the currently stored options object and whose
value the validator accepts is applied, every other field (value rejected
by the validator, or key absent from the stored object) is ignored with
the previously stored value retained, and untouched keys keep their
values; no single invalid field rejects the whole update. -/
theorem setOptions_per_field (current input : OptObj)
    (hin : (input.map Prod.fst).Nodup) :
    (∀ k v, (k, v) ∈ input → isOptionKey current k = true →
      switchValidate k v = some v →
      lookupOpt (setOptions current input) k = some v) ∧
    (∀ k v, (k, v) ∈ input →
      (isOptionKey current k = false ∨ switchValidate k v = none) →
      lookupOpt (setOptions current input) k = lookupOpt current k) ∧
    (∀ k, hasKey input k = false →
      lookupOpt (setOptions current input) k = lookupOpt current k) := by
  have hvnd : ((validateOptions current input).map Prod.fst).Nodup :=
    (validate_keys_sublist current input).nodup hin
  have hset : setOptions current input =
      (if (validateOptions current input).length = 0 ∧
          hasKey input "enabled" = false
       then current
       else spreadOpts current (validateOptions current input)) := rfl
  have hv1 : ∀ k v, (k, v) ∈ input → isOptionKey current k = true →
      switchValidate k v = some v →
      (k, v) ∈ validateOptions current input := by
    intro k v hm hk hsv
    refine List.mem_filterMap.mpr ⟨(k, v), hm, ?_⟩
    have hnk : ¬(isOptionKey current (k, v).1 = false) := by simp [hk]
    rw [if_neg hnk]
    show ((switchValidate k v).map (fun v' => (k, v'))) = some (k, v)
    rw [hsv]
    rfl
  have hv4 : ∀ k v, (k, v) ∈ input →
      (isOptionKey current k = false ∨ switchValidate k v = none) →
      hasKey (validateOptions current input) k = false := by
    intro k v hm hbad
    rw [hasKey_false_iff]
    intro hc
    obtain ⟨q, hq, hqk⟩ := List.mem_map.mp hc
    obtain ⟨p, hp, hpk, hknown, hsv⟩ := validateOptions_mem current input q hq
    have hpk' : p.1 = k := hpk.trans hqk
    have hpe : p = (k, p.2) := by rw [← hpk']
    have hveq : v = p.2 := nodup_key_unique input hin hm (hpe ▸ hp)
    rcases hbad with hbad | hbad
    · rw [hpk', hbad] at hknown
      exact Bool.noConfusion hknown
    · rw [hpk', ← hveq] at hsv
      rw [hbad] at hsv
      exact Option.noConfusion hsv
  refine ⟨?_, ?_, ?_⟩
  · intro k v hm hk hsv
    have hmem := hv1 k v hm hk hsv
    rw [hset]
    by_cases hguard : (validateOptions current input).length = 0 ∧
        hasKey input "enabled" = false
    · exfalso
      rw [List.length_eq_zero.mp hguard.1] at hmem
      exact absurd hmem (List.not_mem_nil _)
    · rw [if_neg hguard]
      exact lookup_spread_mem (validateOptions current input) current k v
        hvnd hmem
  · intro k v hm hbad
    rw [hset]
    by_cases hguard : (validateOptions current input).length = 0 ∧
        hasKey input "enabled" = false
    · rw [if_pos hguard]
    · rw [if_neg hguard]
      exact lookup_spread_absent (validateOptions current input) current k
        (hv4 k v hm hbad)
  · intro k hk
    have hnv : hasKey (validateOptions current input) k = false := by
      rw [hasKey_false_iff]
      intro hc
      obtain ⟨q, hq, hqk⟩ := List.mem_map.mp hc
      obtain ⟨p, hp, hpk, -, -⟩ := validateOptions_mem current input q hq
      have : k ∈ input.map Prod.fst :=
        List.mem_map.mpr ⟨p, hp, hpk.trans hqk⟩
      exact (hasKey_false_iff input k).mp hk this
    rw [hset]
    by_cases hguard : (validateOptions current input).length = 0 ∧
        hasKey input "enabled" = false
    · rw [if_pos hguard]
    · rw [if_neg hguard]
      exact lookup_spread_absent (validateOptions current input) current k hnv

/-- Counterexample to C9: `trackUnnecessaryRenders` is a declared boolean
option that the validator's switch accepts with value `true`, yet
`setOptions` on the default store ignores it — the runtime key filter
only admits keys already present in the stored options object, so the
valid field is dropped and the whole update is a no-op. -/
theorem setOptions_drops_valid_declared_option :
    switchValidate "trackUnnecessaryRenders" (JSVal.bool true) =
      some (JSVal.bool true) ∧
    setOptions defaultOptions
      [("trackUnnecessaryRenders", JSVal.bool true)] = defaultOptions ∧
    lookupOpt (setOptions defaultOptions
        [("trackUnnecessaryRenders", JSVal.bool true)])
      "trackUnnecessaryRenders" = none := by
  refine ⟨rfl, rfl, rfl⟩

/-- Witness for C9's amended theorem: in one call on the default store, a
valid boolean field is applied while an invalid animation speed in the
same call is ignored with the stored value retained. -/
theorem setOptions_per_field_witness :
    lookupOpt (setOptions defaultOptions
        [("log", JSVal.bool true), ("animationSpeed", JSVal.str "nope")])
      "log" = some (JSVal.bool true) ∧
    lookupOpt (setOptions defaultOptions
        [("log", JSVal.bool true), ("animationSpeed", JSVal.str "nope")])
      "animationSpeed" = lookupOpt defaultOptions "animationSpeed" :=
  ⟨(setOptions_per_field defaultOptions
      [("log", JSVal.bool true), ("animationSpeed", JSVal.str "nope")]
      (by decide)).1 "log" (JSVal.bool true) (by decide) (by decide)
      (by decide),
   (setOptions_per_field defaultOptions
      [("log", JSVal.bool true), ("animationSpeed", JSVal.str "nope")]
      (by decide)).2.1 "animationSpeed" (JSVal.str "nope") (by decide)
      (Or.inr (by decide))⟩
